import Mathlib

/-!
Verification of the PyPass password generator (`password.py`) against its
natural-language specification.

The Python source is embedded shallowly:

* `secrets.choice` draws are made explicit: every operation takes a stream
  `σ : Nat → Nat` of raw draw values together with a cursor `k : Nat`
  (the index of the next unused draw); `secrets.choice(seq)` becomes
  "take `seq[σ k % seq.length]` and advance the cursor".  Quantifying over
  `σ` quantifies over all possible behaviours of the randomness source.
* Python exceptions (`IndexError` from indexing an empty sequence,
  `TypeError` from `str.replace` receiving a list as its second argument,
  `ValueError` from `list.index`) are modelled with `Except PyErr`.
  `PyErr.fuelExhausted` is a modelling artifact: the unbounded `while`
  loops of the source are given explicit fuel, and running out of fuel is
  distinguished from every genuine outcome of the program.
* Strings are represented as `List Char`; `''.join(list)` and
  `list(string)` are then identities and are dropped.
* The external collaborators are oracle parameters: `isWord` for
  `wordnet.synsets` (dictionary lookup, consulted on the lowercased run)
  and `breach : Nat → Bool` for `pyhibp.is_password_breached`, giving the
  verdict of the b-th breach query.
-/

inductive PyErr where
  | typeError
  | indexError
  | valueError
  | fuelExhausted
deriving DecidableEq, Repr

/-- Embeds `secrets.choice(l)`: uniform selection from a sequence, reading one
raw value from the stream `σ` at cursor `k`.  On an empty sequence Python's
`secrets.choice` raises `IndexError`. -/
def pychoice (σ : Nat → Nat) (l : List α) (k : Nat) : Except PyErr (α × Nat) :=
  match l with
  | [] => .error .indexError
  | a :: rest => .ok ((a :: rest).getD (σ k % (a :: rest).length) a, k + 1)

/-- Embeds the two-stage draw
`secrets.choice(usable_chars[usable_chars.index(secrets.choice(usable_chars))])`
used by `generate_random` and `remove_touching_duplicates`: first a class is
chosen uniformly from `pool`, then a character uniformly from that class.
`pool[pool.index(cls)]` is `pool.getD (pool.indexOf cls) []`; the `[]` default
is unreachable because `cls` was just drawn from `pool`. -/
def sample_char (pool : List (List Char)) (σ : Nat → Nat) (k : Nat) :
    Except PyErr (Char × Nat) := do
  let (cls, k1) ← pychoice σ pool k
  pychoice σ (pool.getD (pool.indexOf cls) []) k1

/-- Embeds `PyPass.generate_random(pass_length)`: a list comprehension drawing
`pass_length` characters through the two-stage draw, left to right. -/
def generate_random (pool : List (List Char)) (σ : Nat → Nat) :
    Nat → Nat → Except PyErr (List Char × Nat)
  | 0, k => .ok ([], k)
  | n + 1, k => do
    let (c, k1) ← sample_char pool σ k
    let (rest, k2) ← generate_random pool σ n k1
    pure (c :: rest, k2)

/-- Embeds the loop of `PyPass.remove_touching_duplicates`:
`for char in range(len(my_string_list[:-1]))` compares each element of the
ORIGINAL list with its original successor; equal pairs contribute a fresh
two-stage draw, other positions are copied.  The final element is appended
separately by the source and is handled in `remove_touching_duplicates`. -/
def rtdLoop (pool : List (List Char)) (σ : Nat → Nat) :
    List Char → Nat → Except PyErr (List Char × Nat)
  | [], k => .ok ([], k)
  | [_], k => .ok ([], k)
  | a :: b :: rest, k =>
    if a = b then do
      let (c, k1) ← sample_char pool σ k
      let (tl, k2) ← rtdLoop pool σ (b :: rest) k1
      pure (c :: tl, k2)
    else do
      let (tl, k1) ← rtdLoop pool σ (b :: rest) k
      pure (a :: tl, k1)

/-- Embeds `PyPass.remove_touching_duplicates(my_string_list)`: runs the
comparison loop, then executes `new_string_list.append(my_string_list[-1])`,
which raises `IndexError` on an empty input list. -/
def remove_touching_duplicates (pool : List (List Char)) (σ : Nat → Nat)
    (l : List Char) (k : Nat) : Except PyErr (List Char × Nat) := do
  let (nl, k1) ← rtdLoop pool σ l k
  match l.getLast? with
  | none => .error .indexError
  | some c => pure (nl ++ [c], k1)

/-- Python substring test `w in s` specialised to character lists:
`isPrefixB w s` holds when `w` is an initial segment of `s`. -/
def isPrefixB : List Char → List Char → Bool
  | [], _ => true
  | _ :: _, [] => false
  | a :: w, b :: s => a == b && isPrefixB w s

/-- Python substring test `w in s` for character lists. -/
def isSubB (w : List Char) : List Char → Bool
  | [] => isPrefixB w []
  | b :: t => isPrefixB w (b :: t) || isSubB w t

/-- Embeds `PyPass.contains_excluded(my_string)`:
`any(word in my_string for word in self.excluded_words)`. -/
def contains_excluded (exw : List (List Char)) (s : List Char) : Bool :=
  exw.any (fun w => isSubB w s)

/-- Character class of the regular expression `[a-zA-Z]`. -/
def isLetterCh (c : Char) : Bool := c.isAlpha

/-- Accumulator pass splitting a string into its maximal `[a-zA-Z]+` runs,
in order of occurrence; `acc` holds the current run reversed. -/
def runsAux : List Char → List Char → List (List Char)
  | [], acc => if acc.isEmpty then [] else [acc.reverse]
  | c :: rest, acc =>
    if isLetterCh c then runsAux rest (c :: acc)
    else if acc.isEmpty then runsAux rest []
    else acc.reverse :: runsAux rest []

/-- Embeds `re.findall` of the pattern `[a-zA-Z]+` (used by `remove_english`
and `remove_excluded`): all maximal letter runs, left to right. -/
def letterRuns (s : List Char) : List (List Char) := runsAux s []

/-- Embeds `re.findall` of the pattern `[a-zA-Z]{2,}` (used by
`find_letter_sequences`): maximal letter runs of length at least two. -/
def letterRuns2plus (s : List Char) : List (List Char) :=
  (letterRuns s).filter (fun m => 2 ≤ m.length)

/-- Lowercasing `m.lower()` of a letter run before the dictionary lookup. -/
def lowerRun (m : List Char) : List Char := m.map Char.toLower

/-- Embeds the `for m in matches` body of `PyPass.remove_english`.  When a run
`m` satisfies `wordnet.synsets(m.lower()) and len(m) > 3`, the source evaluates
`self.generate_random(len(m))` (and, with `remove_touching` set,
`self.remove_touching_duplicates` of it) and then calls
`pass_string.replace(m, <that list>)`; `str.replace` requires a string second
argument, so this raises `TypeError`.  Otherwise `finds` is set to `0` and the
next match is examined.  Returns the final value of `finds`. -/
def englishFor (pool : List (List Char)) (σ : Nat → Nat)
    (isWord : List Char → Bool) (rt : Bool) :
    List (List Char) → Nat → Nat → Except PyErr (Nat × Nat)
  | [], finds, k => .ok (finds, k)
  | m :: rest, _, k =>
    if isWord (lowerRun m) ∧ 3 < m.length then do
      let (g, k1) ← generate_random pool σ m.length k
      let (_, _) ←
        if rt then remove_touching_duplicates pool σ g k1
        else (pure (g, k1) : Except PyErr (List Char × Nat))
      (.error .typeError : Except PyErr (Nat × Nat))
    else englishFor pool σ isWord rt rest 0 k

/-- Embeds the `while finds == 1` loop of `PyPass.remove_english`: recompute the
`[a-zA-Z]+` matches of the current string, run the `for` body when there are
matches (otherwise set `finds` to `0`), and repeat.  `fuel` bounds the number
of iterations of the unbounded source loop. -/
def englishWhile (pool : List (List Char)) (σ : Nat → Nat)
    (isWord : List Char → Bool) (rt : Bool) :
    Nat → Nat → List Char → Nat → Except PyErr (List Char × Nat)
  | fuel, finds, ps, k =>
    if finds ≠ 1 then .ok (ps, k)
    else
      match fuel with
      | 0 => .error .fuelExhausted
      | fuel + 1 =>
        let ms := letterRuns ps
        if ms.isEmpty then englishWhile pool σ isWord rt fuel 0 ps k
        else
          match englishFor pool σ isWord rt ms finds k with
          | .error e => .error e
          | .ok (finds2, k1) => englishWhile pool σ isWord rt fuel finds2 ps k1

/-- Embeds `PyPass.remove_english(my_string_list, remove_touching)`. -/
def remove_english (pool : List (List Char)) (σ : Nat → Nat)
    (isWord : List Char → Bool) (l : List Char) (rt : Bool)
    (fuel k : Nat) : Except PyErr (List Char × Nat) :=
  englishWhile pool σ isWord rt fuel 1 l k

/-- Embeds the `for m in matches` body of `PyPass.find_letter_sequences`.  The
run qualifies when `(wordnet.synsets(m.lower()) or self.contains_excluded(m))
and len(m) > 3`; the replacement is always passed through
`remove_touching_duplicates`, and `pass_string.replace(m, <list>)` raises
`TypeError` as in `englishFor`. -/
def flsFor (pool : List (List Char)) (σ : Nat → Nat)
    (isWord : List Char → Bool) (exw : List (List Char)) :
    List (List Char) → Nat → Nat → Except PyErr (Nat × Nat)
  | [], finds, k => .ok (finds, k)
  | m :: rest, _, k =>
    if (isWord (lowerRun m) || contains_excluded exw m) ∧ 3 < m.length then do
      let (g, k1) ← generate_random pool σ m.length k
      let (_, _) ← remove_touching_duplicates pool σ g k1
      (.error .typeError : Except PyErr (Nat × Nat))
    else flsFor pool σ isWord exw rest 0 k

/-- Embeds the `while finds == 1` loop of `PyPass.find_letter_sequences`,
whose matches come from the `[a-zA-Z]{2,}` pattern. -/
def flsWhile (pool : List (List Char)) (σ : Nat → Nat)
    (isWord : List Char → Bool) (exw : List (List Char)) :
    Nat → Nat → List Char → Nat → Except PyErr (List Char × Nat)
  | fuel, finds, ps, k =>
    if finds ≠ 1 then .ok (ps, k)
    else
      match fuel with
      | 0 => .error .fuelExhausted
      | fuel + 1 =>
        let ms := letterRuns2plus ps
        if ms.isEmpty then flsWhile pool σ isWord exw fuel 0 ps k
        else
          match flsFor pool σ isWord exw ms finds k with
          | .error e => .error e
          | .ok (finds2, k1) => flsWhile pool σ isWord exw fuel finds2 ps k1

/-- Embeds `PyPass.find_letter_sequences(my_list)`. -/
def find_letter_sequences (pool : List (List Char)) (σ : Nat → Nat)
    (isWord : List Char → Bool) (exw : List (List Char)) (l : List Char)
    (fuel k : Nat) : Except PyErr (List Char × Nat) :=
  flsWhile pool σ isWord exw fuel 1 l k

/-- Embeds the `for m in matches` body of `PyPass.remove_excluded`.  Note the
replacement predicate of the source tests the WHOLE current string:
`self.contains_excluded(pass_string) and len(m) > 3`; the run `m` itself is
only consulted for its length.  The `str.replace` call raises `TypeError` as
in `englishFor`. -/
def excludedFor (pool : List (List Char)) (σ : Nat → Nat)
    (exw : List (List Char)) (rt : Bool) (ps : List Char) :
    List (List Char) → Nat → Nat → Except PyErr (Nat × Nat)
  | [], finds, k => .ok (finds, k)
  | m :: rest, _, k =>
    if contains_excluded exw ps ∧ 3 < m.length then do
      let (g, k1) ← generate_random pool σ m.length k
      let (_, _) ←
        if rt then remove_touching_duplicates pool σ g k1
        else (pure (g, k1) : Except PyErr (List Char × Nat))
      (.error .typeError : Except PyErr (Nat × Nat))
    else excludedFor pool σ exw rt ps rest 0 k

/-- Embeds the `while finds == 1` loop of `PyPass.remove_excluded` with the
`[a-zA-Z]+` pattern. -/
def excludedWhile (pool : List (List Char)) (σ : Nat → Nat)
    (exw : List (List Char)) (rt : Bool) :
    Nat → Nat → List Char → Nat → Except PyErr (List Char × Nat)
  | fuel, finds, ps, k =>
    if finds ≠ 1 then .ok (ps, k)
    else
      match fuel with
      | 0 => .error .fuelExhausted
      | fuel + 1 =>
        let ms := letterRuns ps
        if ms.isEmpty then excludedWhile pool σ exw rt fuel 0 ps k
        else
          match excludedFor pool σ exw rt ps ms finds k with
          | .error e => .error e
          | .ok (finds2, k1) => excludedWhile pool σ exw rt fuel finds2 ps k1

/-- Embeds `PyPass.remove_excluded(my_string_list, remove_touching)`. -/
def remove_excluded (pool : List (List Char)) (σ : Nat → Nat)
    (exw : List (List Char)) (l : List Char) (rt : Bool)
    (fuel k : Nat) : Except PyErr (List Char × Nat) :=
  excludedWhile pool σ exw rt fuel 1 l k

/-- Python `ch in v` count: the number of members of `s` belonging to the
class `cls`, that is `sum(ch in v for ch in string_members)` for one class. -/
def countIn (s : List Char) (cls : List Char) : Nat :=
  (s.filter (fun ch => cls.contains ch)).length

/-- Key set of the dictionary built by `PyPass.generate_new_dict`: the comprehension
`{str(self.usable_chars.index(v)): ... for v in self.usable_chars}` keys each
class by the index of its FIRST occurrence in `usable_chars`, so duplicate
classes collapse onto one key; insertion order gives the keys in increasing
order of first occurrence. -/
def dictKeys (pool : List (List Char)) : List Nat :=
  (List.range pool.length).filter (fun i => pool.indexOf (pool.getD i []) == i)

/-- Embeds `PyPass.generate_new_dict(string_members)` as an association list
from class index (dictionary key) to the count of candidate members of that
class (dictionary value). -/
def generate_new_dict (pool : List (List Char)) (s : List Char) :
    List (Nat × Nat) :=
  (dictKeys pool).map (fun i => (i, countIn s (pool.getD i [])))

/-- Embeds `PyPass.confirm_proportions(list_dict)`:
`all(type_freq >= 1 for type_freq in list_dict.values())`. -/
def confirm_proportions (d : List (Nat × Nat)) : Bool :=
  d.all (fun p => 1 ≤ p.2)

/-- Embeds the `for item in string_proportions.keys()` body of
`PyPass.ensure_proportions`.  The key list is fixed when the `for` starts
(it only depends on `usable_chars`), while each lookup
`string_proportions[item]` reads the dictionary recomputed after the previous
item, which always equals `generate_new_dict` of the current candidate, so
deficiency is tested against the current candidate.  A deficient class
overwrites a uniformly chosen position with a character drawn from it, then
re-runs `remove_excluded` (without duplicate removal) when excluded words are
configured. -/
def epFor (pool : List (List Char)) (σ : Nat → Nat) (exw : List (List Char))
    (fuelRE : Nat) :
    List Nat → List Char → Nat → Except PyErr (List Char × Nat)
  | [], s, k => .ok (s, k)
  | i :: rest, s, k =>
    if countIn s (pool.getD i []) < 1 then do
      let (idx, k1) ← pychoice σ (List.range s.length) k
      let (c, k2) ← pychoice σ (pool.getD i []) k1
      let s1 := s.set idx c
      let (s2, k3) ←
        if exw.isEmpty then (pure (s1, k2) : Except PyErr (List Char × Nat))
        else remove_excluded pool σ exw s1 false fuelRE k2
      epFor pool σ exw fuelRE rest s2 k3
    else epFor pool σ exw fuelRE rest s k

/-- Embeds the `while not self.confirm_proportions(string_proportions)` loop of
`PyPass.ensure_proportions`, with `fuel` bounding the iterations of the
unbounded source loop. -/
def epWhile (pool : List (List Char)) (σ : Nat → Nat) (exw : List (List Char))
    (fuelRE : Nat) : Nat → List Char → Nat → Except PyErr (List Char × Nat)
  | 0, s, k =>
    if confirm_proportions (generate_new_dict pool s) then .ok (s, k)
    else .error .fuelExhausted
  | fuel + 1, s, k =>
    if confirm_proportions (generate_new_dict pool s) then .ok (s, k)
    else
      match epFor pool σ exw fuelRE (dictKeys pool) s k with
      | .error e => .error e
      | .ok (s1, k1) => epWhile pool σ exw fuelRE fuel s1 k1

/-- Embeds `PyPass.ensure_proportions(string_members)`. -/
def ensure_proportions (pool : List (List Char)) (σ : Nat → Nat)
    (exw : List (List Char)) (fuelRE fuel : Nat) (s : List Char) (k : Nat) :
    Except PyErr (List Char × Nat) :=
  epWhile pool σ exw fuelRE fuel s k

/-- Python `list.remove(x)`: delete the first occurrence of `x`. -/
def removeFirst (x : Char) : List Char → List Char
  | [] => []
  | a :: rest => if a = x then rest else a :: removeFirst x rest

/-- One iteration of the outer loop of the exclusion filter in
`PyPass.__init__`: for a single excluded character, each class that contains
it has its first occurrence removed (`usable_char_list.remove(excl_char)`). -/
def filterStep (x : Char) (pool : List (List Char)) : List (List Char) :=
  pool.map (fun cls => if x ∈ cls then removeFirst x cls else cls)

/-- Embeds the construction-time exclusion filter of `PyPass.__init__`:
`for excl_char in excluded_chars: for usable_char_list in usable_chars: ...`,
processing the excluded characters in order against the evolving classes. -/
def initFilter (excluded : List Char) (pool : List (List Char)) :
    List (List Char) :=
  excluded.foldl (fun p x => filterStep x p) pool

/-- Parameter names of the Python method
`generate_password(self, pass_number, remove_repeating, remove_english,
check_proportions, fixed_len)`. -/
def gpParamNames : List String :=
  ["self", "pass_number", "remove_repeating", "remove_english",
   "check_proportions", "fixed_len"]

/-- Keyword-argument names used by the breach-retry call inside
`generate_password`:
`self.generate_password(pass_number=..., remove_repeating=...,
remove_english=..., ensure_proportions=check_proportions)`. -/
def gpBreachCallKwargs : List String :=
  ["pass_number", "remove_repeating", "remove_english", "ensure_proportions"]

/-- Python keyword-argument binding: a call binds successfully only if every
keyword names a parameter of the callee; otherwise the call raises
`TypeError` (unexpected keyword argument). -/
def kwargsBind (params kwargs : List String) : Bool :=
  kwargs.all (fun s => params.contains s)

/-- One candidate attempt of `PyPass.generate_password`, up to the breach
check: draw (of `fixed_len` when truthy, else of a uniform length in
`[min_pass_len, max_pass_len]`), then the optional repairs in source order:
`remove_touching_duplicates` when `remove_repeating`, `remove_english` when
requested, `remove_excluded` when excluded words are configured,
`ensure_proportions` when `check_proportions`. -/
def gpAttempt (pool : List (List Char)) (σ : Nat → Nat)
    (isWord : List Char → Bool) (exw : List (List Char))
    (min_len max_len fuel : Nat) (rr re cp : Bool) (fixed_len k : Nat) :
    Except PyErr (List Char × Nat) := do
  let (c0, k1) ←
    if fixed_len ≠ 0 then generate_random pool σ fixed_len k
    else do
      let (len, kx) ← pychoice σ (List.range' min_len (max_len + 1 - min_len)) k
      generate_random pool σ len kx
  let (c1, k2) ←
    if rr then remove_touching_duplicates pool σ c0 k1
    else (pure (c0, k1) : Except PyErr (List Char × Nat))
  let (c2, k3) ←
    if re then remove_english pool σ isWord c1 rr fuel k2
    else (pure (c1, k2) : Except PyErr (List Char × Nat))
  let (c3, k4) ←
    if exw.isEmpty then (pure (c2, k3) : Except PyErr (List Char × Nat))
    else remove_excluded pool σ exw c2 rr fuel k3
  if cp then ensure_proportions pool σ exw fuel fuel c3 k4
  else (pure (c3, k4) : Except PyErr (List Char × Nat))

/-- Embeds the `for number in range(pass_number)` loop of
`PyPass.generate_password`, with `remaining` iterations left and the breach
counter `b` numbering the queries to the breach service.  A clean candidate
is appended to `pws` (`self.passwords`).  A compromised candidate triggers
the source's retry call, which passes the keyword `ensure_proportions`;
since `generate_password` has no such parameter, Python raises `TypeError`
before the retry body runs — the guard `kwargsBind` reproduces this, and the
recursive branch behind it (restarting a whole batch of `pass_number`
passwords with the default `fixed_len`) is therefore unreachable. -/
def gpLoop (pool : List (List Char)) (σ : Nat → Nat)
    (isWord : List Char → Bool) (breach : Nat → Bool)
    (exw : List (List Char)) (defFixedLen min_len max_len : Nat) :
    Nat → Nat → Nat → Bool → Bool → Bool → Nat → List (List Char) →
    Nat → Nat → Except PyErr (List (List Char) × Nat × Nat)
  | _, _, 0, _, _, _, _, pws, k, b => .ok (pws, k, b)
  | 0, _, _ + 1, _, _, _, _, _, _, _ => .error .fuelExhausted
  | fuel + 1, pass_number, r + 1, rr, re, cp, fixed_len, pws, k, b =>
    match gpAttempt pool σ isWord exw min_len max_len (fuel + 1) rr re cp
        fixed_len k with
    | .error e => .error e
    | .ok (cand, k1) =>
      if breach b then
        if kwargsBind gpParamNames gpBreachCallKwargs then
          match gpLoop pool σ isWord breach exw defFixedLen min_len max_len
              fuel pass_number pass_number rr re cp defFixedLen pws k1 (b + 1) with
          | .error e => .error e
          | .ok (pws2, k2, b2) =>
            gpLoop pool σ isWord breach exw defFixedLen min_len max_len
              fuel pass_number r rr re cp fixed_len pws2 k2 b2
        else .error .typeError
      else
        gpLoop pool σ isWord breach exw defFixedLen min_len max_len
          fuel pass_number r rr re cp fixed_len (pws ++ [cand]) k1 (b + 1)

/-- Embeds `PyPass.generate_password(pass_number, remove_repeating,
remove_english, check_proportions, fixed_len)` acting on the accumulated
password list `pws`; `if pass_number < 1: pass_number = 1` becomes
`max pass_number 1`. -/
def generate_password (pool : List (List Char)) (σ : Nat → Nat)
    (isWord : List Char → Bool) (breach : Nat → Bool)
    (exw : List (List Char)) (defFixedLen min_len max_len fuel : Nat)
    (pass_number : Nat) (rr re cp : Bool) (fixed_len : Nat)
    (pws : List (List Char)) (k b : Nat) :
    Except PyErr (List (List Char) × Nat × Nat) :=
  gpLoop pool σ isWord breach exw defFixedLen min_len max_len
    fuel (max pass_number 1) (max pass_number 1) rr re cp fixed_len pws k b

/-- One candidate attempt of `PyPass.generate_human_password`, up to the
breach check: draw, then the fixed pipeline `remove_touching_duplicates`,
`find_letter_sequences`, `ensure_proportions`. -/
def ghpAttempt (pool : List (List Char)) (σ : Nat → Nat)
    (isWord : List Char → Bool) (exw : List (List Char))
    (min_len max_len fuel fixed_len k : Nat) :
    Except PyErr (List Char × Nat) := do
  let (c0, k1) ←
    if fixed_len ≠ 0 then generate_random pool σ fixed_len k
    else do
      let (len, kx) ← pychoice σ (List.range' min_len (max_len + 1 - min_len)) k
      generate_random pool σ len kx
  let (c1, k2) ← remove_touching_duplicates pool σ c0 k1
  let (c2, k3) ← find_letter_sequences pool σ isWord exw c1 fuel k2
  ensure_proportions pool σ exw fuel fuel c2 k3

/-- Embeds the `for number in range(pass_number)` loop of
`PyPass.generate_human_password`.  A clean candidate is appended to `hws`
(`self.human_passwords`).  On a compromised candidate the source executes
`self.generate_password()` — the DIRECT generator with all-default arguments
(`pass_number=PSWRD_NO`, no repairs, `fixed_len=FIXED_LEN`), whose accepted
output goes to `self.passwords` — and then proceeds with its own next
iteration; the rejected human-style candidate is discarded. -/
def ghpLoop (pool : List (List Char)) (σ : Nat → Nat)
    (isWord : List Char → Bool) (breach : Nat → Bool)
    (exw : List (List Char)) (defFixedLen defPassNo min_len max_len : Nat) :
    Nat → Nat → Nat → List (List Char) → List (List Char) → Nat → Nat →
    Except PyErr (List (List Char) × List (List Char) × Nat × Nat)
  | _, 0, _, pws, hws, k, b => .ok (pws, hws, k, b)
  | 0, _ + 1, _, _, _, _, _ => .error .fuelExhausted
  | fuel + 1, r + 1, fixed_len, pws, hws, k, b =>
    match ghpAttempt pool σ isWord exw min_len max_len (fuel + 1) fixed_len k with
    | .error e => .error e
    | .ok (cand, k1) =>
      if breach b then
        match gpLoop pool σ isWord breach exw defFixedLen min_len max_len
            fuel (max defPassNo 1) (max defPassNo 1) false false false
            defFixedLen pws k1 (b + 1) with
        | .error e => .error e
        | .ok (pws2, k2, b2) =>
          ghpLoop pool σ isWord breach exw defFixedLen defPassNo min_len max_len
            fuel r fixed_len pws2 hws k2 b2
      else
        ghpLoop pool σ isWord breach exw defFixedLen defPassNo min_len max_len
          fuel r fixed_len pws (hws ++ [cand]) k1 (b + 1)

/-- Embeds `PyPass.generate_human_password(pass_number, fixed_len)` acting on
the accumulated lists `pws` (`self.passwords`) and `hws`
(`self.human_passwords`). -/
def generate_human_password (pool : List (List Char)) (σ : Nat → Nat)
    (isWord : List Char → Bool) (breach : Nat → Bool)
    (exw : List (List Char)) (defFixedLen defPassNo min_len max_len fuel : Nat)
    (pass_number fixed_len : Nat) (pws hws : List (List Char)) (k b : Nat) :
    Except PyErr (List (List Char) × List (List Char) × Nat × Nat) :=
  ghpLoop pool σ isWord breach exw defFixedLen defPassNo min_len max_len
    fuel (max pass_number 1) fixed_len pws hws k b

/-- A well-formed pool: at least one class, and no class empty.  This is the
configuration under which the source's `secrets.choice` calls cannot raise. -/
def wfPool (pool : List (List Char)) : Prop :=
  pool ≠ [] ∧ ∀ cls ∈ pool, cls ≠ []

/-- A one-class pool used in concrete runs. -/
def poolAB : List (List Char) := [['a', 'b']]

/-- The draw stream that always yields the raw value `0`, so every
`secrets.choice` returns the first element of its sequence. -/
def sigma0 : Nat → Nat := fun _ => 0

/-- Dictionary oracle recognising no word. -/
def isWordNone : List Char → Bool := fun _ => false

/-- Dictionary oracle recognising exactly the word `tests`. -/
def isWordTests : List Char → Bool := fun m => m == ['t', 'e', 's', 't', 's']

/-- Breach oracle reporting the first queried candidate as compromised and
every later one as clean. -/
def breachOnce : Nat → Bool := fun b => b == 0

/-- Breach oracle reporting every candidate as clean. -/
def breachNever : Nat → Bool := fun _ => false

/-- A one-class pool whose class holds the five characters of `1cat2`, plus a
draw stream `sigmaC4` making `generate_random 5` spell out `1cat2`. -/
def pool5 : List (List Char) := [['1', 'c', 'a', 't', '2']]

/-- Draw stream producing the candidate `1cat2` from `pool5`: draw `2*i` picks
the class, draw `2*i+1` picks the character index. -/
def sigmaC4 : Nat → Nat := fun k => [0, 0, 0, 1, 0, 2, 0, 3, 0, 4].getD k 0

/-- The two-singleton-class pool `[['a'], ['b']]` of the class-coverage
counterexample. -/
def poolC6 : List (List Char) := [['a'], ['b']]

/-- Draw stream under which `ensure_proportions` on `poolC6` does terminate:
position `0` then character, position `1` then character. -/
def sigmaGood : Nat → Nat := fun k => [0, 0, 1, 0].getD k 0

/-- Divergence of `ensure_proportions` on a fixed configuration: for EVERY
fuel bound the embedded loop fails to exit, i.e. the source loop never
terminates under the draw stream `σ`. -/
def epDiverges (pool : List (List Char)) (σ : Nat → Nat)
    (exw : List (List Char)) (s : List Char) : Prop :=
  ∀ fuelRE fuel k, ensure_proportions pool σ exw fuelRE fuel s k =
    .error .fuelExhausted

/-- Pool exhibiting the sampling bias: class `['a']` is half as likely to be
drawn as each of `'b'`, `'c'` would be under a flat distribution. -/
def poolNU : List (List Char) := [['a'], ['b', 'c']]

/-- All four equiprobable outcomes of one two-stage draw from `poolNU`: the
class draw is `u % 2` and the character draw `v % size` for `(u, v)` ranging
over `{0,1} × {0,1}` (`2` is a common multiple of the class sizes, so `v`
induces the uniform choice within either class). -/
def nuOutcomes : List (Except PyErr (Char × Nat)) :=
  [(0, 0), (0, 1), (1, 0), (1, 1)].map
    (fun p => sample_char poolNU (fun k => if k == 0 then p.1 else p.2) 0)

/-- Number of outcomes in `l` that return the character `c`. -/
def countOk (c : Char) (l : List (Except PyErr (Char × Nat))) : Nat :=
  (l.filter (fun x => match x with
    | .ok (c2, _) => c2 == c
    | _ => false)).length

theorem getD_indexOf {α : Type} [BEq α] [LawfulBEq α] (l : List α) (a : α)
    (h : a ∈ l) (d : α) : l.getD (l.indexOf a) d = a := by
  induction l with
  | nil => cases h
  | cons b t ih =>
    cases hb : b == a with
    | true =>
      have hba : b = a := eq_of_beq hb
      subst hba
      simp [List.indexOf_cons, List.getD]
    | false =>
      have hm : a ∈ t := by
        cases h with
        | head => simp at hb
        | tail _ h2 => exact h2
      simp only [List.indexOf_cons, hb, cond_false, List.getD_cons_succ]
      exact ih hm

theorem pychoice_ok {α : Type} {σ : Nat → Nat} {l : List α} {k : Nat}
    {c : α} {k' : Nat} (h : pychoice σ l k = .ok (c, k')) :
    c ∈ l ∧ k' = k + 1 := by
  cases l with
  | nil => simp [pychoice] at h
  | cons a rest =>
    simp only [pychoice, Except.ok.injEq, Prod.mk.injEq] at h
    obtain ⟨h1, h2⟩ := h
    constructor
    · rw [← h1]
      have hlt : σ k % (a :: rest).length < (a :: rest).length :=
        Nat.mod_lt _ (by simp)
      rw [List.getD_eq_getElem _ _ hlt]
      exact List.getElem_mem hlt
    · omega

theorem pychoice_of_ne {α : Type} (σ : Nat → Nat) (l : List α) (k : Nat)
    (h : l ≠ []) : ∃ c, pychoice σ l k = .ok (c, k + 1) ∧ c ∈ l := by
  cases l with
  | nil => exact absurd rfl h
  | cons a rest =>
    refine ⟨(a :: rest).getD (σ k % (a :: rest).length) a, rfl, ?_⟩
    have hlt : σ k % (a :: rest).length < (a :: rest).length :=
      Nat.mod_lt _ (by simp)
    rw [List.getD_eq_getElem _ _ hlt]
    exact List.getElem_mem hlt

theorem sample_char_mem {pool : List (List Char)} {σ : Nat → Nat} {k : Nat}
    {c : Char} {k2 : Nat} (h : sample_char pool σ k = .ok (c, k2)) :
    k2 = k + 2 ∧ ∃ cls ∈ pool, c ∈ cls := by
  unfold sample_char at h
  cases hp : pychoice σ pool k with
  | error e => rw [hp] at h; simp [Bind.bind, Except.bind] at h
  | ok p =>
    obtain ⟨cls, k1⟩ := p
    rw [hp] at h
    simp only [Bind.bind, Except.bind] at h
    obtain ⟨hmem, hk1⟩ := pychoice_ok hp
    have hcls : pool.getD (pool.indexOf cls) [] = cls := getD_indexOf _ _ hmem []
    rw [hcls] at h
    obtain ⟨hc, hk2⟩ := pychoice_ok h
    exact ⟨by omega, cls, hmem, hc⟩

theorem sample_char_ok {pool : List (List Char)} (σ : Nat → Nat) (k : Nat)
    (hwf : wfPool pool) :
    ∃ c, sample_char pool σ k = .ok (c, k + 2) ∧ ∃ cls ∈ pool, c ∈ cls := by
  obtain ⟨hne, hcls⟩ := hwf
  obtain ⟨cls, hp, hmem⟩ := pychoice_of_ne σ pool k hne
  have hget : pool.getD (pool.indexOf cls) [] = cls := getD_indexOf _ _ hmem []
  obtain ⟨c, hp2, hcmem⟩ := pychoice_of_ne σ cls (k + 1) (hcls cls hmem)
  refine ⟨c, ?_, cls, hmem, hcmem⟩
  unfold sample_char
  rw [hp]
  simp only [Bind.bind, Except.bind]
  rw [hget, hp2]

theorem generate_random_ok {pool : List (List Char)} (σ : Nat → Nat)
    (hwf : wfPool pool) :
    ∀ n k, ∃ out, generate_random pool σ n k = .ok (out, k + 2 * n) ∧
      out.length = n ∧ ∀ c ∈ out, ∃ cls ∈ pool, c ∈ cls := by
  intro n
  induction n with
  | zero => intro k; exact ⟨[], rfl, rfl, by simp⟩
  | succ n ih =>
    intro k
    obtain ⟨c, hs, cls, hclsmem, hcmem⟩ := sample_char_ok σ k hwf
    obtain ⟨out, hg, hlen, hmem⟩ := ih (k + 2)
    refine ⟨c :: out, ?_, by simp [hlen], ?_⟩
    · show generate_random pool σ (n + 1) k = _
      unfold generate_random
      rw [hs]
      simp only [Bind.bind, Except.bind]
      rw [hg]
      have : k + 2 + 2 * n = k + 2 * (n + 1) := by ring
      simp [pure, Except.pure, this]
    · intro x hx
      cases hx with
      | head => exact ⟨cls, hclsmem, hcmem⟩
      | tail _ hx2 => exact hmem x hx2

theorem rtdLoop_ok {pool : List (List Char)} (σ : Nat → Nat)
    (hwf : wfPool pool) :
    ∀ (l : List Char) (k : Nat), ∃ nl k1,
      rtdLoop pool σ l k = .ok (nl, k1) ∧ nl.length = l.length - 1 := by
  intro l
  induction l with
  | nil => intro k; exact ⟨[], k, rfl, rfl⟩
  | cons a t ih =>
    intro k
    cases t with
    | nil => exact ⟨[], k, rfl, rfl⟩
    | cons b rest =>
      by_cases hab : a = b
      · obtain ⟨c, hs, -⟩ := sample_char_ok σ k hwf
        obtain ⟨tl, k2, hr, hlen⟩ := ih (k + 2)
        refine ⟨c :: tl, k2, ?_, by simp [hlen]⟩
        show rtdLoop pool σ (a :: b :: rest) k = _
        unfold rtdLoop
        rw [if_pos hab, hs]
        simp only [Bind.bind, Except.bind]
        rw [hr]
        rfl
      · obtain ⟨tl, k1, hr, hlen⟩ := ih k
        refine ⟨a :: tl, k1, ?_, by simp [hlen]⟩
        show rtdLoop pool σ (a :: b :: rest) k = _
        unfold rtdLoop
        rw [if_neg hab]
        simp only [Bind.bind, Except.bind]
        rw [hr]
        rfl

theorem rtdLoop_length {pool : List (List Char)} {σ : Nat → Nat} :
    ∀ {l : List Char} {k : Nat} {nl : List Char} {k1 : Nat},
      rtdLoop pool σ l k = .ok (nl, k1) → nl.length = l.length - 1 := by
  intro l
  induction l with
  | nil =>
    intro k nl k1 h
    simp only [rtdLoop, Except.ok.injEq, Prod.mk.injEq] at h
    simp [← h.1]
  | cons a t ih =>
    intro k nl k1 h
    cases t with
    | nil =>
      simp only [rtdLoop, Except.ok.injEq, Prod.mk.injEq] at h
      simp [← h.1]
    | cons b rest =>
      unfold rtdLoop at h
      by_cases hab : a = b
      · rw [if_pos hab] at h
        cases hs : sample_char pool σ k with
        | error e => rw [hs] at h; simp [Bind.bind, Except.bind] at h
        | ok p =>
          obtain ⟨c, kc⟩ := p
          rw [hs] at h
          simp only [Bind.bind, Except.bind] at h
          cases hr : rtdLoop pool σ (b :: rest) kc with
          | error e => rw [hr] at h; simp at h
          | ok q =>
            obtain ⟨tl, k2⟩ := q
            rw [hr] at h
            simp only [pure, Except.pure, Except.ok.injEq, Prod.mk.injEq] at h
            have := ih hr
            rw [← h.1]
            simp at this ⊢
            omega
      · rw [if_neg hab] at h
        simp only [Bind.bind, Except.bind] at h
        cases hr : rtdLoop pool σ (b :: rest) k with
        | error e => rw [hr] at h; simp at h
        | ok q =>
          obtain ⟨tl, k2⟩ := q
          rw [hr] at h
          simp only [pure, Except.pure, Except.ok.injEq, Prod.mk.injEq] at h
          have := ih hr
          rw [← h.1]
          simp at this ⊢
          omega

theorem rtdLoop_dup {pool : List (List Char)} {σ : Nat → Nat} :
    ∀ {l : List Char} {k : Nat} {nl : List Char} {k1 : Nat} {i : Nat} {d : Char},
      rtdLoop pool σ l k = .ok (nl, k1) → i + 1 < l.length →
      l.getD i d = l.getD (i + 1) d →
      ∃ cls ∈ pool, nl.getD i d ∈ cls := by
  intro l
  induction l with
  | nil => intro k nl k1 i d _ hi _; simp at hi
  | cons a t ih =>
    intro k nl k1 i d h hi hd
    cases t with
    | nil => simp at hi
    | cons b rest =>
      unfold rtdLoop at h
      cases i with
      | zero =>
        have hab : a = b := by simpa using hd
        rw [if_pos hab] at h
        cases hs : sample_char pool σ k with
        | error e => rw [hs] at h; simp [Bind.bind, Except.bind] at h
        | ok p =>
          obtain ⟨c, kc⟩ := p
          rw [hs] at h
          simp only [Bind.bind, Except.bind] at h
          cases hr : rtdLoop pool σ (b :: rest) kc with
          | error e => rw [hr] at h; simp at h
          | ok q =>
            obtain ⟨tl, k2⟩ := q
            rw [hr] at h
            simp only [pure, Except.pure, Except.ok.injEq, Prod.mk.injEq] at h
            obtain ⟨-, cls, hcls, hc⟩ := sample_char_mem hs
            refine ⟨cls, hcls, ?_⟩
            rw [← h.1]
            simpa using hc
      | succ j =>
        have hi2 : j + 1 < (b :: rest).length := by simpa using hi
        have hd2 : (b :: rest).getD j d = (b :: rest).getD (j + 1) d := by
          simpa using hd
        by_cases hab : a = b
        · rw [if_pos hab] at h
          cases hs : sample_char pool σ k with
          | error e => rw [hs] at h; simp [Bind.bind, Except.bind] at h
          | ok p =>
            obtain ⟨c, kc⟩ := p
            rw [hs] at h
            simp only [Bind.bind, Except.bind] at h
            cases hr : rtdLoop pool σ (b :: rest) kc with
            | error e => rw [hr] at h; simp at h
            | ok q =>
              obtain ⟨tl, k2⟩ := q
              rw [hr] at h
              simp only [pure, Except.pure, Except.ok.injEq, Prod.mk.injEq] at h
              obtain ⟨cls, hcls, hmem⟩ := ih hr hi2 hd2
              refine ⟨cls, hcls, ?_⟩
              rw [← h.1]
              simpa using hmem
        · rw [if_neg hab] at h
          simp only [Bind.bind, Except.bind] at h
          cases hr : rtdLoop pool σ (b :: rest) k with
          | error e => rw [hr] at h; simp at h
          | ok q =>
            obtain ⟨tl, k2⟩ := q
            rw [hr] at h
            simp only [pure, Except.pure, Except.ok.injEq, Prod.mk.injEq] at h
            obtain ⟨cls, hcls, hmem⟩ := ih hr hi2 hd2
            refine ⟨cls, hcls, ?_⟩
            rw [← h.1]
            simpa using hmem

theorem rtd_ok {pool : List (List Char)} (σ : Nat → Nat) (hwf : wfPool pool)
    (l : List Char) (k : Nat) (hne : l ≠ []) :
    ∃ out k', remove_touching_duplicates pool σ l k = .ok (out, k') ∧
      out.length = l.length := by
  obtain ⟨nl, k1, hr, hlen⟩ := rtdLoop_ok σ hwf l k
  cases hl : l.getLast? with
  | none =>
    rw [List.getLast?_eq_none_iff] at hl
    exact absurd hl hne
  | some c =>
    refine ⟨nl ++ [c], k1, ?_, ?_⟩
    · unfold remove_touching_duplicates
      rw [hr]
      simp only [Bind.bind, Except.bind]
      rw [hl]
      rfl
    · have : l.length ≠ 0 := by
        intro h0
        exact hne (List.length_eq_zero.mp h0)
      simp [hlen]
      omega

theorem englishFor_ok {pool : List (List Char)} {σ : Nat → Nat}
    {isWord : List Char → Bool} {rt : Bool} :
    ∀ {ms : List (List Char)} {finds k f2 k2 : Nat},
      englishFor pool σ isWord rt ms finds k = .ok (f2, k2) →
      k2 = k ∧ f2 = (if ms.isEmpty then finds else 0) ∧
      ∀ m ∈ ms, ¬(isWord (lowerRun m) ∧ 3 < m.length) := by
  intro ms
  induction ms with
  | nil =>
    intro finds k f2 k2 h
    simp only [englishFor, Except.ok.injEq, Prod.mk.injEq] at h
    exact ⟨h.2.symm, by simp [h.1.symm], by simp⟩
  | cons m rest ih =>
    intro finds k f2 k2 h
    unfold englishFor at h
    by_cases hc : isWord (lowerRun m) ∧ 3 < m.length
    · rw [if_pos hc] at h
      cases hg : generate_random pool σ m.length k with
      | error e => rw [hg] at h; simp [Bind.bind, Except.bind] at h
      | ok p =>
        obtain ⟨g, k1⟩ := p
        rw [hg] at h
        simp only [Bind.bind, Except.bind] at h
        cases rt with
        | true =>
          simp only [if_true] at h
          cases hr : remove_touching_duplicates pool σ g k1 with
          | error e => simp [hr] at h
          | ok q => simp [hr] at h
        | false => simp [pure, Except.pure] at h
    · rw [if_neg hc] at h
      obtain ⟨hk, hf, hall⟩ := ih h
      refine ⟨hk, by simpa using hf, ?_⟩
      intro x hx
      cases hx with
      | head => exact hc
      | tail _ hx2 => exact hall x hx2

theorem englishFor_noqual {pool : List (List Char)} {σ : Nat → Nat}
    {isWord : List Char → Bool} {rt : Bool} :
    ∀ {ms : List (List Char)} (finds k : Nat),
      (∀ m ∈ ms, ¬(isWord (lowerRun m) ∧ 3 < m.length)) →
      englishFor pool σ isWord rt ms finds k =
        .ok ((if ms.isEmpty then finds else 0), k) := by
  intro ms
  induction ms with
  | nil => intro finds k _; rfl
  | cons m rest ih =>
    intro finds k hall
    unfold englishFor
    rw [if_neg (hall m (by simp))]
    rw [ih 0 k (fun x hx => hall x (List.mem_cons_of_mem m hx))]
    simp

theorem englishWhile_exit (pool : List (List Char)) (σ : Nat → Nat)
    (isWord : List Char → Bool) (rt : Bool) (fuel : Nat) (ps : List Char)
    (k : Nat) : englishWhile pool σ isWord rt fuel 0 ps k = .ok (ps, k) := by
  unfold englishWhile
  simp

theorem remove_english_ok {pool : List (List Char)} {σ : Nat → Nat}
    {isWord : List Char → Bool} {l : List Char} {rt : Bool}
    {fuel k : Nat} {out : List Char} {k' : Nat}
    (h : remove_english pool σ isWord l rt fuel k = .ok (out, k')) :
    out = l ∧ k' = k ∧
    ∀ m ∈ letterRuns l, ¬(isWord (lowerRun m) ∧ 3 < m.length) := by
  unfold remove_english at h
  cases fuel with
  | zero =>
    unfold englishWhile at h
    simp at h
  | succ fuel =>
    unfold englishWhile at h
    simp only [ne_eq, not_true_eq_false, if_false] at h
    by_cases hms : (letterRuns l).isEmpty
    · rw [if_pos hms, englishWhile_exit] at h
      simp only [Except.ok.injEq, Prod.mk.injEq] at h
      have hnil : letterRuns l = [] := List.isEmpty_iff.mp hms
      exact ⟨h.1.symm, h.2.symm, by simp [hnil]⟩
    · rw [if_neg hms] at h
      cases hfor : englishFor pool σ isWord rt (letterRuns l) 1 k with
      | error e => rw [hfor] at h; simp at h
      | ok p =>
        obtain ⟨f2, k1⟩ := p
        rw [hfor] at h
        obtain ⟨hk1, hf2, hall⟩ := englishFor_ok hfor
        rw [if_neg hms] at hf2
        subst hf2
        have h2 : englishWhile pool σ isWord rt fuel 0 l k1 = .ok (out, k') := h
        rw [englishWhile_exit] at h2
        simp only [Except.ok.injEq, Prod.mk.injEq] at h2
        exact ⟨h2.1.symm, by omega, hall⟩

theorem remove_english_fix {pool : List (List Char)} (σ : Nat → Nat)
    (isWord : List Char → Bool) (l : List Char) (rt : Bool)
    (fuel k : Nat) (hfuel : 1 ≤ fuel)
    (hall : ∀ m ∈ letterRuns l, ¬(isWord (lowerRun m) ∧ 3 < m.length)) :
    remove_english pool σ isWord l rt fuel k = .ok (l, k) := by
  unfold remove_english
  cases fuel with
  | zero => omega
  | succ fuel =>
    unfold englishWhile
    simp only [ne_eq, not_true_eq_false, if_false]
    by_cases hms : (letterRuns l).isEmpty
    · rw [if_pos hms]
      exact englishWhile_exit pool σ isWord rt fuel l k
    · rw [if_neg hms]
      rw [englishFor_noqual 1 k hall]
      rw [if_neg hms]
      exact englishWhile_exit pool σ isWord rt fuel l k

theorem flsFor_ok {pool : List (List Char)} {σ : Nat → Nat}
    {isWord : List Char → Bool} {exw : List (List Char)} :
    ∀ {ms : List (List Char)} {finds k f2 k2 : Nat},
      flsFor pool σ isWord exw ms finds k = .ok (f2, k2) →
      k2 = k ∧ f2 = (if ms.isEmpty then finds else 0) ∧
      ∀ m ∈ ms, ¬((isWord (lowerRun m) || contains_excluded exw m) ∧ 3 < m.length) := by
  intro ms
  induction ms with
  | nil =>
    intro finds k f2 k2 h
    simp only [flsFor, Except.ok.injEq, Prod.mk.injEq] at h
    exact ⟨h.2.symm, by simp [h.1.symm], by simp⟩
  | cons m rest ih =>
    intro finds k f2 k2 h
    unfold flsFor at h
    by_cases hc : (isWord (lowerRun m) || contains_excluded exw m) ∧ 3 < m.length
    · rw [if_pos hc] at h
      cases hg : generate_random pool σ m.length k with
      | error e => rw [hg] at h; simp [Bind.bind, Except.bind] at h
      | ok p =>
        obtain ⟨g, k1⟩ := p
        rw [hg] at h
        simp only [Bind.bind, Except.bind] at h
        cases hr : remove_touching_duplicates pool σ g k1 with
        | error e => simp [hr] at h
        | ok q => simp [hr] at h
    · rw [if_neg hc] at h
      obtain ⟨hk, hf, hall⟩ := ih h
      refine ⟨hk, by simpa using hf, ?_⟩
      intro x hx
      cases hx with
      | head => exact hc
      | tail _ hx2 => exact hall x hx2

theorem flsFor_noqual {pool : List (List Char)} {σ : Nat → Nat}
    {isWord : List Char → Bool} {exw : List (List Char)} :
    ∀ {ms : List (List Char)} (finds k : Nat),
      (∀ m ∈ ms, ¬((isWord (lowerRun m) || contains_excluded exw m) ∧ 3 < m.length)) →
      flsFor pool σ isWord exw ms finds k =
        .ok ((if ms.isEmpty then finds else 0), k) := by
  intro ms
  induction ms with
  | nil => intro finds k _; rfl
  | cons m rest ih =>
    intro finds k hall
    unfold flsFor
    rw [if_neg (hall m (by simp))]
    rw [ih 0 k (fun x hx => hall x (List.mem_cons_of_mem m hx))]
    simp

theorem flsWhile_exit (pool : List (List Char)) (σ : Nat → Nat)
    (isWord : List Char → Bool) (exw : List (List Char)) (fuel : Nat)
    (ps : List Char) (k : Nat) :
    flsWhile pool σ isWord exw fuel 0 ps k = .ok (ps, k) := by
  unfold flsWhile
  simp

theorem find_letter_sequences_ok {pool : List (List Char)} {σ : Nat → Nat}
    {isWord : List Char → Bool} {exw : List (List Char)} {l : List Char}
    {fuel k : Nat} {out : List Char} {k' : Nat}
    (h : find_letter_sequences pool σ isWord exw l fuel k = .ok (out, k')) :
    out = l ∧ k' = k ∧
    ∀ m ∈ letterRuns2plus l,
      ¬((isWord (lowerRun m) || contains_excluded exw m) ∧ 3 < m.length) := by
  unfold find_letter_sequences at h
  cases fuel with
  | zero =>
    unfold flsWhile at h
    simp at h
  | succ fuel =>
    unfold flsWhile at h
    simp only [ne_eq, not_true_eq_false, if_false] at h
    by_cases hms : (letterRuns2plus l).isEmpty
    · rw [if_pos hms, flsWhile_exit] at h
      simp only [Except.ok.injEq, Prod.mk.injEq] at h
      have hnil : letterRuns2plus l = [] := List.isEmpty_iff.mp hms
      exact ⟨h.1.symm, h.2.symm, by simp [hnil]⟩
    · rw [if_neg hms] at h
      cases hfor : flsFor pool σ isWord exw (letterRuns2plus l) 1 k with
      | error e => rw [hfor] at h; simp at h
      | ok p =>
        obtain ⟨f2, k1⟩ := p
        rw [hfor] at h
        obtain ⟨hk1, hf2, hall⟩ := flsFor_ok hfor
        rw [if_neg hms] at hf2
        subst hf2
        have h2 : flsWhile pool σ isWord exw fuel 0 l k1 = .ok (out, k') := h
        rw [flsWhile_exit] at h2
        simp only [Except.ok.injEq, Prod.mk.injEq] at h2
        exact ⟨h2.1.symm, by omega, hall⟩

theorem find_letter_sequences_fix {pool : List (List Char)} (σ : Nat → Nat)
    (isWord : List Char → Bool) (exw : List (List Char)) (l : List Char)
    (fuel k : Nat) (hfuel : 1 ≤ fuel)
    (hall : ∀ m ∈ letterRuns2plus l,
      ¬((isWord (lowerRun m) || contains_excluded exw m) ∧ 3 < m.length)) :
    find_letter_sequences pool σ isWord exw l fuel k = .ok (l, k) := by
  unfold find_letter_sequences
  cases fuel with
  | zero => omega
  | succ fuel =>
    unfold flsWhile
    simp only [ne_eq, not_true_eq_false, if_false]
    by_cases hms : (letterRuns2plus l).isEmpty
    · rw [if_pos hms]
      exact flsWhile_exit pool σ isWord exw fuel l k
    · rw [if_neg hms]
      rw [flsFor_noqual 1 k hall]
      rw [if_neg hms]
      exact flsWhile_exit pool σ isWord exw fuel l k

theorem excludedFor_error_iff {pool : List (List Char)} (σ : Nat → Nat)
    (exw : List (List Char)) (rt : Bool) (ps : List Char)
    (hwf : wfPool pool) :
    ∀ (ms : List (List Char)) (finds k : Nat),
      (excludedFor pool σ exw rt ps ms finds k = .error .typeError ↔
        (contains_excluded exw ps = true ∧ ∃ m ∈ ms, 3 < m.length)) := by
  intro ms
  induction ms with
  | nil =>
    intro finds k
    constructor
    · intro h; simp [excludedFor] at h
    · rintro ⟨-, m, hm, -⟩; cases hm
  | cons m rest ih =>
    intro finds k
    unfold excludedFor
    by_cases hc : contains_excluded exw ps ∧ 3 < m.length
    · rw [if_pos hc]
      constructor
      · intro _
        exact ⟨hc.1, m, by simp, hc.2⟩
      · intro _
        obtain ⟨g, hg, hlen, -⟩ := generate_random_ok σ hwf m.length k
        rw [hg]
        simp only [Bind.bind, Except.bind]
        cases rt with
        | true =>
          have hgne : g ≠ [] := by
            intro h0
            rw [h0] at hlen
            simp at hlen
            omega
          obtain ⟨o2, k2, hr, -⟩ := rtd_ok σ hwf g (k + 2 * m.length) hgne
          rw [if_pos rfl, hr]
        | false => simp [pure, Except.pure]
    · rw [if_neg hc]
      rw [ih 0 k]
      constructor
      · rintro ⟨hce, m2, hm2, hlen2⟩
        exact ⟨hce, m2, List.mem_cons_of_mem m hm2, hlen2⟩
      · rintro ⟨hce, m2, hm2, hlen2⟩
        refine ⟨hce, ?_⟩
        cases hm2 with
        | head => exact absurd ⟨hce, hlen2⟩ hc
        | tail _ hm3 => exact ⟨m2, hm3, hlen2⟩

theorem flsFor_error_iff {pool : List (List Char)} (σ : Nat → Nat)
    (isWord : List Char → Bool) (exw : List (List Char))
    (hwf : wfPool pool) :
    ∀ (ms : List (List Char)) (finds k : Nat),
      (flsFor pool σ isWord exw ms finds k = .error .typeError ↔
        ∃ m ∈ ms, (isWord (lowerRun m) || contains_excluded exw m) = true ∧
          3 < m.length) := by
  intro ms
  induction ms with
  | nil =>
    intro finds k
    constructor
    · intro h; simp [flsFor] at h
    · rintro ⟨m, hm, -⟩; cases hm
  | cons m rest ih =>
    intro finds k
    unfold flsFor
    by_cases hc : (isWord (lowerRun m) || contains_excluded exw m) ∧ 3 < m.length
    · rw [if_pos hc]
      constructor
      · intro _
        exact ⟨m, by simp, hc.1, hc.2⟩
      · intro _
        obtain ⟨g, hg, hlen, -⟩ := generate_random_ok σ hwf m.length k
        rw [hg]
        simp only [Bind.bind, Except.bind]
        have hgne : g ≠ [] := by
          intro h0
          rw [h0] at hlen
          simp at hlen
          omega
        obtain ⟨o2, k2, hr, -⟩ := rtd_ok σ hwf g (k + 2 * m.length) hgne
        rw [hr]
    · rw [if_neg hc]
      rw [ih 0 k]
      constructor
      · rintro ⟨m2, hm2, hq, hlen2⟩
        exact ⟨m2, List.mem_cons_of_mem m hm2, hq, hlen2⟩
      · rintro ⟨m2, hm2, hq, hlen2⟩
        cases hm2 with
        | head => exact absurd ⟨hq, hlen2⟩ hc
        | tail _ hm3 => exact ⟨m2, hm3, hq, hlen2⟩

theorem epWhile_ok_confirm {pool : List (List Char)} {σ : Nat → Nat}
    {exw : List (List Char)} {fuelRE : Nat} :
    ∀ {fuel : Nat} {s : List Char} {k : Nat} {out : List Char} {k' : Nat},
      epWhile pool σ exw fuelRE fuel s k = .ok (out, k') →
      confirm_proportions (generate_new_dict pool out) = true := by
  intro fuel
  induction fuel with
  | zero =>
    intro s k out k' h
    unfold epWhile at h
    by_cases hcp : confirm_proportions (generate_new_dict pool s)
    · rw [if_pos hcp] at h
      simp only [Except.ok.injEq, Prod.mk.injEq] at h
      rw [← h.1]
      exact hcp
    · rw [if_neg hcp] at h
      simp at h
  | succ fuel ih =>
    intro s k out k' h
    unfold epWhile at h
    by_cases hcp : confirm_proportions (generate_new_dict pool s)
    · rw [if_pos hcp] at h
      simp only [Except.ok.injEq, Prod.mk.injEq] at h
      rw [← h.1]
      exact hcp
    · rw [if_neg hcp] at h
      cases hfor : epFor pool σ exw fuelRE (dictKeys pool) s k with
      | error e => rw [hfor] at h; simp at h
      | ok p =>
        obtain ⟨s1, k1⟩ := p
        rw [hfor] at h
        exact ih h

theorem removeFirst_count_self (x : Char) :
    ∀ l : List Char, x ∈ l → (removeFirst x l).count x + 1 = l.count x := by
  intro l
  induction l with
  | nil => intro h; cases h
  | cons a t ih =>
    intro h
    unfold removeFirst
    by_cases hax : a = x
    · subst hax
      rw [if_pos rfl]
      simp [List.count_cons]
    · rw [if_neg hax]
      have hm : x ∈ t := by
        cases h with
        | head => exact absurd rfl hax
        | tail _ h2 => exact h2
      have hne : ¬(a == x) = true := by simp [hax]
      rw [List.count_cons, List.count_cons, if_neg hne]
      have := ih hm
      omega

theorem removeFirst_count_le (x y : Char) :
    ∀ l : List Char, (removeFirst x l).count y ≤ l.count y := by
  intro l
  induction l with
  | nil => simp [removeFirst]
  | cons a t ih =>
    unfold removeFirst
    by_cases hax : a = x
    · rw [if_pos hax]
      rw [List.count_cons]
      split <;> omega
    · rw [if_neg hax]
      rw [List.count_cons, List.count_cons]
      split <;> omega

theorem filterStep_count_le (x y : Char) (cls : List Char) :
    ((if x ∈ cls then removeFirst x cls else cls) : List Char).count y ≤
      cls.count y := by
  by_cases hx : x ∈ cls
  · rw [if_pos hx]; exact removeFirst_count_le x y cls
  · rw [if_neg hx]

theorem filterStep_count_zero (x : Char) (cls : List Char)
    (h : cls.count x ≤ 1) :
    ((if x ∈ cls then removeFirst x cls else cls) : List Char).count x = 0 := by
  by_cases hx : x ∈ cls
  · rw [if_pos hx]
    have h1 := removeFirst_count_self x cls hx
    have h2 : 0 < cls.count x := List.count_pos_iff.mpr hx
    omega
  · rw [if_neg hx]
    exact List.count_eq_zero.mpr hx

theorem initFilter_subcount (excluded : List Char) :
    ∀ (pool : List (List Char)) (cls2 : List Char),
      cls2 ∈ initFilter excluded pool →
      ∃ cls ∈ pool, ∀ y, cls2.count y ≤ cls.count y := by
  induction excluded with
  | nil =>
    intro pool cls2 h
    exact ⟨cls2, h, fun y => le_refl _⟩
  | cons x rest ih =>
    intro pool cls2 h
    have h2 : cls2 ∈ initFilter rest (filterStep x pool) := h
    obtain ⟨cls1, hcls1, hle1⟩ := ih (filterStep x pool) cls2 h2
    obtain ⟨cls0, hcls0, heq⟩ := List.mem_map.mp hcls1
    refine ⟨cls0, hcls0, fun y => ?_⟩
    calc cls2.count y ≤ cls1.count y := hle1 y
      _ ≤ cls0.count y := by rw [← heq]; exact filterStep_count_le x y cls0

theorem initFilter_no_excluded (excluded : List Char) :
    ∀ (pool : List (List Char)),
      (∀ x ∈ excluded, ∀ cls ∈ pool, cls.count x ≤ 1) →
      ∀ cls2 ∈ initFilter excluded pool, ∀ x ∈ excluded, x ∉ cls2 := by
  induction excluded with
  | nil => intro pool _ cls2 _ x hx; cases hx
  | cons x0 rest ih =>
    intro pool hcount cls2 hmem x hx
    have hmem2 : cls2 ∈ initFilter rest (filterStep x0 pool) := hmem
    cases hx with
    | head =>
      obtain ⟨cls1, hcls1, hle⟩ :=
        initFilter_subcount rest (filterStep x0 pool) cls2 hmem2
      obtain ⟨cls0, hcls0, heq⟩ := List.mem_map.mp hcls1
      have hz : cls1.count x0 = 0 := by
        rw [← heq]
        exact filterStep_count_zero x0 cls0
          (hcount x0 (by simp) cls0 hcls0)
      have : cls2.count x0 = 0 := Nat.le_zero.mp (hz ▸ hle x0)
      exact List.count_eq_zero.mp this
    | tail _ hx2 =>
      refine ih (filterStep x0 pool) ?_ cls2 hmem2 x hx2
      intro y hy cls1 hcls1
      obtain ⟨cls0, hcls0, heq⟩ := List.mem_map.mp hcls1
      calc cls1.count y ≤ cls0.count y := by
            rw [← heq]; exact filterStep_count_le x0 y cls0
        _ ≤ 1 := hcount y (List.mem_cons_of_mem x0 hy) cls0 hcls0

theorem epWhile_bc_diverges (fuelRE : Nat) :
    ∀ fuel k, epWhile poolC6 sigma0 [] fuelRE fuel ['b', 'c'] k =
      .error .fuelExhausted := by
  intro fuel
  induction fuel with
  | zero => intro k; rfl
  | succ fuel ih =>
    intro k
    have hfor : epFor poolC6 sigma0 [] fuelRE (dictKeys poolC6) ['b', 'c'] k =
        .ok (['b', 'c'], k + 4) := rfl
    unfold epWhile
    rw [if_neg (by decide :
      ¬ confirm_proportions (generate_new_dict poolC6 ['b', 'c']) = true)]
    rw [hfor]
    exact ih (k + 4)

/-- Claim C1: the claim states that in direct mode a breach hit discards the
candidate and restarts the attempt with the same options, retrying until a
clean candidate is appended.  The code cannot do this: its retry call passes
the keyword argument `ensure_proportions`, which is not a parameter of
`generate_password` (the parameter is named `check_proportions`), so the call
raises `TypeError`.  Evaluated at the claim's own scenario — a breach oracle
reporting compromised exactly once and clean thereafter — the run aborts with
`TypeError` and appends nothing, instead of retrying. -/
theorem c1_breach_retry_raises :
    generate_password poolAB sigma0 isWordNone breachOnce [] 2 1 3 5 1
      false false false 2 [] 0 0 = .error .typeError ∧
    kwargsBind gpParamNames gpBreachCallKwargs = false :=
  ⟨rfl, rfl⟩

/-- Claim C2: the claim states that a compromised human-style candidate is
retried through the human-style pipeline and that every password accepted in
this mode lands in `human_passwords`.  The code instead calls
`self.generate_password()` — the direct generator — on a breach hit.  In this
run (breach oracle compromised once then clean) the retry's accepted password
`aa` is appended to `passwords` (first component) while `human_passwords`
(second component) stays empty. -/
theorem c2_breach_reroutes_to_direct_list :
    generate_human_password poolAB sigma0 isWordNone breachOnce [] 2 1 1 3 5
      1 2 [] [] 0 0 = .ok ([['a', 'a']], [], 10, 2) :=
  rfl

/-- Claim C3: the claim states that a qualifying letter run is replaced by a
fresh random run and the pass returns a repaired list.  In all three passes
the source calls `pass_string.replace(m, <list>)` with the freshly generated
LIST as second argument, which raises `TypeError` in Python; each pass
evaluated at an input with one qualifying run (`tests` recognized as a word;
`xcatsy` containing the excluded word `cats`) aborts instead of returning. -/
theorem c3_replace_with_list_raises :
    remove_english poolAB sigma0 isWordTests ['t', 'e', 's', 't', 's']
      false 3 0 = .error .typeError ∧
    find_letter_sequences poolAB sigma0 isWordTests []
      ['t', 'e', 's', 't', 's'] 3 0 = .error .typeError ∧
    remove_excluded poolAB sigma0 [['c', 'a', 't', 's']]
      ['x', 'c', 'a', 't', 's', 'y'] false 3 0 = .error .typeError :=
  ⟨rfl, rfl, rfl⟩

/-- Claim C4, counterexample: with the non-empty ExclusionSet `{cat}` a direct
generation run (no optional repairs, breach always clean) accepts the
candidate `1cat2`, yet `contains_excluded` holds on it — the excluded word
sits inside a maximal letter run of length 3, which the `len(m) > 3` guard of
`remove_excluded` never touches.  So `contains_excluded` is NOT false on
every accepted candidate. -/
theorem c4_counterexample :
    generate_password pool5 sigmaC4 isWordNone breachNever [['c', 'a', 't']]
      2 1 3 5 1 false false false 5 [] 0 0 =
      .ok ([['1', 'c', 'a', 't', '2']], 10, 1) ∧
    contains_excluded [['c', 'a', 't']] ['1', 'c', 'a', 't', '2'] = true :=
  ⟨rfl, rfl⟩

/-- Claim C4 (amended): the literal replacement predicates hold as the claim
describes them — `remove_excluded` fires exactly when the WHOLE current
string contains an excluded word and the run is longer than 3, while
`find_letter_sequences` tests the run itself — but the guarantee that
accepted candidates never contain an excluded substring fails: an excluded
word inside a letter run of length at most 3 survives and is accepted
(concrete run `1cat2`). -/
theorem c4_amended_repair_predicates :
    (∀ (pool : List (List Char)) (σ : Nat → Nat) (exw : List (List Char))
       (rt : Bool) (ps : List Char) (ms : List (List Char)) (finds k : Nat),
       wfPool pool →
       (excludedFor pool σ exw rt ps ms finds k = .error .typeError ↔
         (contains_excluded exw ps = true ∧ ∃ m ∈ ms, 3 < m.length))) ∧
    (∀ (pool : List (List Char)) (σ : Nat → Nat) (isWord : List Char → Bool)
       (exw : List (List Char)) (ms : List (List Char)) (finds k : Nat),
       wfPool pool →
       (flsFor pool σ isWord exw ms finds k = .error .typeError ↔
         ∃ m ∈ ms, (isWord (lowerRun m) || contains_excluded exw m) = true ∧
           3 < m.length)) ∧
    (generate_password pool5 sigmaC4 isWordNone breachNever [['c', 'a', 't']]
       2 1 3 5 1 false false false 5 [] 0 0 =
       .ok ([['1', 'c', 'a', 't', '2']], 10, 1) ∧
     contains_excluded [['c', 'a', 't']] ['1', 'c', 'a', 't', '2'] = true) := by
  refine ⟨?_, ?_, rfl, rfl⟩
  · intro pool σ exw rt ps ms finds k hwf
    exact excludedFor_error_iff σ exw rt ps hwf ms finds k
  · intro pool σ isWord exw ms finds k hwf
    exact flsFor_error_iff σ isWord exw hwf ms finds k

/-- Witness for claim C4's amended theorem at a concrete input: the whole
string `xcat5` contains the excluded word `cat` and the run `xcat` has length
4, so the `remove_excluded` body fires (and aborts with the `TypeError` of
the list-valued `str.replace`). -/
theorem c4_amended_witness :
    excludedFor poolAB sigma0 [['c', 'a', 't']] false ['x', 'c', 'a', 't', '5']
      [['x', 'c', 'a', 't']] 1 0 = .error .typeError :=
  (c4_amended_repair_predicates.1 poolAB sigma0 [['c', 'a', 't']] false
    ['x', 'c', 'a', 't', '5'] [['x', 'c', 'a', 't']] 1 0
    ⟨by decide, by decide⟩).mpr (by decide)

/-- Claim C5, counterexample: `list.remove` deletes only the FIRST occurrence,
so a class listing an excluded character twice keeps one copy: filtering
`['a', 'a']` against excluded `['a']` leaves `['a']`, which still contains
the globally-excluded character. -/
theorem c5_counterexample :
    initFilter ['a'] [['a', 'a']] = [['a']] ∧
    'a' ∈ (initFilter ['a'] [['a', 'a']]).getD 0 [] :=
  ⟨rfl, by decide⟩

/-- Claim C5 (amended): after the construction-time exclusion filter, no class
contains any globally-excluded character PROVIDED each class lists each
excluded character at most once; with duplicate listings only the first
occurrence is removed. -/
theorem c5_amended_exclusion_filter :
    ∀ (excluded : List Char) (pool : List (List Char)),
      (∀ x ∈ excluded, ∀ cls ∈ pool, cls.count x ≤ 1) →
      ∀ cls2 ∈ initFilter excluded pool, ∀ x ∈ excluded, x ∉ cls2 :=
  fun excluded => initFilter_no_excluded excluded

/-- Witness for claim C5's amended theorem: filtering the duplicate-free class
`['a', 'b']` against excluded `['a']` leaves a class without `'a'`. -/
theorem c5_amended_witness :
    'a' ∉ (initFilter ['a'] [['a', 'b']]).getD 0 [] :=
  c5_amended_exclusion_filter ['a'] [['a', 'b']] (by decide)
    ((initFilter ['a'] [['a', 'b']]).getD 0 []) (by decide) 'a' (by decide)

/-- Claim C6, counterexample: the claim asserts termination for EVERY input
under the precondition `len(classes) <= candidate_length`.  The configuration
`poolC6 = [['a'], ['b']]` with candidate `cc` satisfies the precondition, yet
under the draw stream that always returns `0` (every overwrite lands on
position `0`) the two deficient classes overwrite each other forever: the
loop fails to exit for every fuel bound. -/
theorem c6_counterexample :
    poolC6.length ≤ (['c', 'c'] : List Char).length ∧
    epDiverges poolC6 sigma0 [] ['c', 'c'] := by
  refine ⟨by decide, ?_⟩
  intro fuelRE fuel k
  unfold ensure_proportions
  cases fuel with
  | zero => rfl
  | succ fuel =>
    unfold epWhile
    rw [if_neg (by decide :
      ¬ confirm_proportions (generate_new_dict poolC6 ['c', 'c']) = true)]
    have hfor : epFor poolC6 sigma0 [] fuelRE (dictKeys poolC6) ['c', 'c'] k =
        .ok (['b', 'c'], k + 4) := rfl
    rw [hfor]
    exact epWhile_bc_diverges fuelRE fuel (k + 4)

/-- Claim C6 (amended): class-coverage repair is partially correct — WHENEVER
`ensure_proportions` terminates, its output satisfies `confirm_proportions`
(every class count at least 1) — and under the claim's precondition
termination is possible for favourable draw streams (concrete run on `poolC6`
from `cc`), but it is not guaranteed for every stream. -/
theorem c6_amended_partial_correctness :
    (∀ (pool : List (List Char)) (σ : Nat → Nat) (exw : List (List Char))
       (fuelRE fuel : Nat) (s : List Char) (k : Nat) (out : List Char)
       (k' : Nat),
       ensure_proportions pool σ exw fuelRE fuel s k = .ok (out, k') →
       confirm_proportions (generate_new_dict pool out) = true) ∧
    ensure_proportions poolC6 sigmaGood [] 1 2 ['c', 'c'] 0 =
      .ok (['a', 'b'], 4) := by
  refine ⟨?_, rfl⟩
  intro pool σ exw fuelRE fuel s k out k' h
  exact epWhile_ok_confirm h

/-- Witness for claim C6's amended theorem: the terminating concrete run's
output `ab` covers both classes of `poolC6`. -/
theorem c6_amended_witness :
    confirm_proportions (generate_new_dict poolC6 ['a', 'b']) = true :=
  c6_amended_partial_correctness.1 poolC6 sigmaGood [] 1 2 ['c', 'c'] 0
    ['a', 'b'] 4 rfl

/-- Claim C7: word repair is idempotent at convergence.  Whenever
`remove_english` or `find_letter_sequences` terminates and returns a
candidate, the output equals the input, contains no qualifying letter run
(no run recognised as a dictionary word — or, for the combined variant, as a
word or excluded — of length above 3), and re-running the same pass on the
output returns it unchanged with zero further replacements, for any draw
stream and any positive fuel. -/
theorem c7_word_repair_idempotent :
    (∀ (pool : List (List Char)) (σ : Nat → Nat) (isWord : List Char → Bool)
       (l : List Char) (rt : Bool) (fuel k : Nat) (out : List Char) (k' : Nat),
       remove_english pool σ isWord l rt fuel k = .ok (out, k') →
       (out = l ∧ (∀ m ∈ letterRuns out, ¬(isWord (lowerRun m) ∧ 3 < m.length)) ∧
        ∀ (σ2 : Nat → Nat) (fuel2 k2 : Nat), 1 ≤ fuel2 →
          remove_english pool σ2 isWord out rt fuel2 k2 = .ok (out, k2))) ∧
    (∀ (pool : List (List Char)) (σ : Nat → Nat) (isWord : List Char → Bool)
       (exw : List (List Char)) (l : List Char) (fuel k : Nat)
       (out : List Char) (k' : Nat),
       find_letter_sequences pool σ isWord exw l fuel k = .ok (out, k') →
       (out = l ∧
        (∀ m ∈ letterRuns2plus out,
          ¬((isWord (lowerRun m) || contains_excluded exw m) ∧ 3 < m.length)) ∧
        ∀ (σ2 : Nat → Nat) (fuel2 k2 : Nat), 1 ≤ fuel2 →
          find_letter_sequences pool σ2 isWord exw out fuel2 k2 =
            .ok (out, k2))) := by
  constructor
  · intro pool σ isWord l rt fuel k out k' h
    obtain ⟨hout, -, hall⟩ := remove_english_ok h
    subst hout
    exact ⟨rfl, hall, fun σ2 fuel2 k2 hf =>
      remove_english_fix σ2 isWord out rt fuel2 k2 hf hall⟩
  · intro pool σ isWord exw l fuel k out k' h
    obtain ⟨hout, -, hall⟩ := find_letter_sequences_ok h
    subst hout
    exact ⟨rfl, hall, fun σ2 fuel2 k2 hf =>
      find_letter_sequences_fix σ2 isWord exw out fuel2 k2 hf hall⟩

/-- Witness for claim C7 at a concrete input: `xy` has no qualifying run, both
passes return it unchanged, and re-running returns it unchanged again. -/
theorem c7_witness :
    remove_english poolAB sigma0 isWordNone ['x', 'y'] false 1 0 =
      .ok (['x', 'y'], 0) ∧
    find_letter_sequences poolAB sigma0 isWordNone [] ['x', 'y'] 1 0 =
      .ok (['x', 'y'], 0) := by
  constructor
  · have h := c7_word_repair_idempotent.1 poolAB sigma0 isWordNone
      ['x', 'y'] false 1 0 ['x', 'y'] 0 rfl
    exact h.2.2 sigma0 1 0 (by decide)
  · have h := c7_word_repair_idempotent.2 poolAB sigma0 isWordNone []
      ['x', 'y'] 1 0 ['x', 'y'] 0 rfl
    exact h.2.2 sigma0 1 0 (by decide)

/-- Claim C8, counterexample: with the one-character pool `[['a']]` the fresh
draw replacing the duplicate at position 0 of `aa` can only be `'a'` again,
so the output retains the SAME pair of values at the SAME two positions where
the original had equal adjacent characters — refuting "the output does not
retain that same pair". -/
theorem c8_counterexample :
    remove_touching_duplicates [['a']] sigma0 ['a', 'a'] 0 =
      .ok (['a', 'a'], 2) ∧
    (['a', 'a'] : List Char).getD 0 ' ' = (['a', 'a'] : List Char).getD 1 ' ' :=
  ⟨rfl, rfl⟩

/-- Claim C8 (amended): for every pair of positions where the ORIGINAL
candidate had equal adjacent characters, a single application of adjacency
repair overwrites position `i` with a freshly drawn pool character (a member
of some usable class) and preserves the length; the fresh draw may happen to
equal the original character, so the identical pair can survive. -/
theorem c8_amended_fresh_draw :
    ∀ (pool : List (List Char)) (σ : Nat → Nat) (l : List Char) (k : Nat)
      (out : List Char) (k' : Nat) (i : Nat) (d : Char),
      remove_touching_duplicates pool σ l k = .ok (out, k') →
      i + 1 < l.length → l.getD i d = l.getD (i + 1) d →
      out.length = l.length ∧ ∃ cls ∈ pool, out.getD i d ∈ cls := by
  intro pool σ l k out k' i d h hi hd
  unfold remove_touching_duplicates at h
  cases hr : rtdLoop pool σ l k with
  | error e => rw [hr] at h; simp [Bind.bind, Except.bind] at h
  | ok p =>
    obtain ⟨nl, k1⟩ := p
    rw [hr] at h
    simp only [Bind.bind, Except.bind] at h
    cases hl : l.getLast? with
    | none => rw [hl] at h; simp at h
    | some c =>
      rw [hl] at h
      simp only [pure, Except.pure, Except.ok.injEq, Prod.mk.injEq] at h
      have hlen := rtdLoop_length hr
      have hout : out = nl ++ [c] := h.1.symm
      constructor
      · rw [hout]
        simp only [List.length_append, List.length_cons, List.length_nil]
        omega
      · obtain ⟨cls, hcls, hmem⟩ := rtdLoop_dup hr hi hd
        refine ⟨cls, hcls, ?_⟩
        rw [hout]
        rw [List.getD_append _ _ _ _ (by omega : i < nl.length)]
        exact hmem

/-- Witness for claim C8's amended theorem at the counterexample input: the
output has the input's length and its position 0 holds a pool character. -/
theorem c8_amended_witness :
    (['a', 'a'] : List Char).length = (['a', 'a'] : List Char).length ∧
    ∃ cls ∈ poolAB, (['a', 'a'] : List Char).getD 0 ' ' ∈ cls :=
  c8_amended_fresh_draw poolAB sigma0 ['a', 'a'] 0 ['a', 'a'] 2 0 ' '
    rfl (by decide) rfl

/-- Claim C9: for every length `n` (and any well-formed pool),
`generate_random` returns exactly `n` characters, each drawn by the two-stage
draw and hence a member of some usable class; and the per-position
distribution is NOT uniform over the flattened character set.  For `poolNU`
the four equiprobable two-stage outcomes give `'a'` (the singleton class)
probability 1/2 — above the flat 1/3 — and `'b'` probability 1/4 — below it
(`3 * count > 4` resp. `3 * count < 4` encode the comparisons with
denominator-cleared fractions). -/
theorem c9_two_stage_draw :
    (∀ (pool : List (List Char)) (σ : Nat → Nat) (n k : Nat), wfPool pool →
      ∃ out, generate_random pool σ n k = .ok (out, k + 2 * n) ∧
        out.length = n ∧ ∀ c ∈ out, ∃ cls ∈ pool, c ∈ cls) ∧
    (countOk 'a' nuOutcomes = 2 ∧ countOk 'b' nuOutcomes = 1 ∧
     countOk 'c' nuOutcomes = 1 ∧ nuOutcomes.length = 4 ∧
     3 * countOk 'a' nuOutcomes > nuOutcomes.length ∧
     3 * countOk 'b' nuOutcomes < nuOutcomes.length) := by
  refine ⟨?_, by decide⟩
  intro pool σ n k hwf
  exact generate_random_ok σ hwf n k

/-- Witness for claim C9 at a concrete input: drawing two characters from
`poolAB` under the all-zero stream yields `aa`, consuming four raw draws. -/
theorem c9_witness :
    generate_random poolAB sigma0 2 0 = .ok (['a', 'a'], 0 + 2 * 2) := by
  obtain ⟨out, hg, -, -⟩ :=
    c9_two_stage_draw.1 poolAB sigma0 2 0 ⟨by decide, by decide⟩
  have h2 : generate_random poolAB sigma0 2 0 = .ok (['a', 'a'], 0 + 2 * 2) :=
    rfl
  rw [hg] at h2
  rw [hg, h2]

/-- Claim C10: adjacency repair requires a non-empty input.  On the empty
list the trailing `my_string_list[-1]` access raises `IndexError`
unconditionally; on every non-empty list (over a well-formed pool) the
function returns normally and preserves the input's length. -/
theorem c10_rtd_nonempty_precondition :
    ∀ (pool : List (List Char)) (σ : Nat → Nat) (k : Nat) (l : List Char),
      wfPool pool →
      (remove_touching_duplicates pool σ [] k = .error .indexError) ∧
      (l ≠ [] → ∃ out k',
        remove_touching_duplicates pool σ l k = .ok (out, k') ∧
        out.length = l.length) := by
  intro pool σ k l hwf
  exact ⟨rfl, fun hne => rtd_ok σ hwf l k hne⟩

/-- Witness for claim C10 at concrete inputs: the empty list raises
`IndexError`; the singleton `x` is returned unchanged. -/
theorem c10_witness :
    remove_touching_duplicates poolAB sigma0 [] 0 = .error .indexError ∧
    remove_touching_duplicates poolAB sigma0 ['x'] 0 = .ok (['x'], 0) := by
  obtain ⟨h1, h2⟩ := c10_rtd_nonempty_precondition poolAB sigma0 0 ['x']
    ⟨by decide, by decide⟩
  obtain ⟨out, k', hok, -⟩ := h2 (by decide)
  have h3 : remove_touching_duplicates poolAB sigma0 ['x'] 0 =
      .ok (['x'], 0) := rfl
  exact ⟨h1, h3⟩
